import Mathlib

/-!
Verification of the debugbunny observation agent.

This file gives a shallow embedding, in Lean, of the core pure logic of the
repository:

* the per-target scheduler cell (`src/scrape_target.rs`: `SyncedService` with
  `set_next_wake_up_time`, `reset_interval`, `is_due`);
* the chunked, content-addressed framing helpers (`src/chunkify.rs`:
  `Chunks::new`, `Chunks::from_chunks`, `Chunks::iter`, `ChunksRead::read`);
* the result-processing pipeline (`src/result_processor.rs`:
  `ScrapeResultRepr::from_scrape_result`, `scrape_ok_to_meta`, and the record
  sequence written by `LogOutputWriter::process`);
* the HTTP action (`src/http.rs`: `HttpScrapeTarget::call`) and the way
  `DebugBunny::start_scraping` builds it from a config (`src/debugbunny.rs`).

Modelling conventions:

* Instants and durations are measured in whole nanoseconds as `Nat`
  (`tokio::time::Instant` / `std::time::Duration`; `Duration::as_nanos`
  returns a `u128`, which never overflows for representable durations, so
  unbounded `Nat` is exact there).  The one machine-width cast in the
  scheduler, `as u32`, is modelled explicitly as `% 2^32`.
* Code that can panic (a failed `assert!`, an out-of-bounds index, an
  arithmetic underflow on `usize`) is modelled in `Option`, with `none`
  standing for the panic.
* Byte strings are `List Nat`.
* SHA-256 (`sha2`) and zstd compression are opaque pure functions of their
  input; definitions are parameterised over them (`h` for the hash,
  `compress lvl` for `zstd::encode_all` at level `lvl`), as are
  `serde_json::to_vec` for the command body and `String::from_utf8_lossy`.
-/

/-! ## Scheduler cell (`src/scrape_target.rs`) -/

/-- State of `SyncedService` (minus the wrapped service): the next wakeup
instant and the interval, both in nanoseconds. -/
structure SyncedService where
  wakeup : Nat
  interval : Nat
  deriving DecidableEq, Repr

/-- `SyncedService::set_next_wake_up_time`, with `now` the value of
`Instant::now()` read at the top of the function.

```
let now = Instant::now();
if now < self.wakeup { return; }
let delta = now - self.wakeup;
let ival_nanos = self.interval.as_nanos();
let f = ((delta.as_nanos() + ival_nanos) / (ival_nanos)) as u32;
assert!(f >= 1);
self.wakeup += self.interval * f;
```

The `as u32` cast is `% 2^32`; the failed `assert!` (a panic) is `none`.
A zero interval would be a division by zero (also a panic in Rust);
it is likewise `none`. -/
def set_next_wake_up_time (s : SyncedService) (now : Nat) : Option SyncedService :=
  if now < s.wakeup then some s
  else if s.interval = 0 then none
  else
    let delta := now - s.wakeup
    let f := ((delta + s.interval) / s.interval) % 2 ^ 32
    if 1 ≤ f then some { s with wakeup := s.wakeup + s.interval * f }
    else none

/-- `SyncedService::reset_interval`: set `wakeup` to now, then apply
`set_next_wake_up_time`.  The two `Instant::now()` reads happen back to back
inside one critical section and are modelled as the same instant `now`. -/
def reset_interval (s : SyncedService) (now : Nat) : Option SyncedService :=
  set_next_wake_up_time { s with wakeup := now } now

/-- `SyncedService::is_due`: `Instant::now() >= self.wakeup`. -/
def is_due (s : SyncedService) (now : Nat) : Bool :=
  s.wakeup ≤ now

/-- A schedule-mutating operation on the cell, tagged with the instant at
which it runs: `advance now` is the `set_next_wake_up_time` call made after a
scheduled call completes, `reset now` the `reset_interval` call made after an
unscheduled call completes. -/
inductive CellOp where
  | advance (now : Nat)
  | reset (now : Nat)
  deriving DecidableEq, Repr

/-- The instant at which an operation runs. -/
def CellOp.time : CellOp → Nat
  | .advance now => now
  | .reset now => now

/-- One operation on the cell; `none` is a panic. -/
def cellStep (s : SyncedService) : CellOp → Option SyncedService
  | .advance now => set_next_wake_up_time s now
  | .reset now => reset_interval s now

/-- Run a sequence of operations from a state, collecting the state observed
after each operation; `none` if any operation panics. -/
def cellRun (s : SyncedService) : List CellOp → Option (List SyncedService)
  | [] => some []
  | op :: ops => (cellStep s op).bind fun s' => (cellRun s' ops).map (s' :: ·)

/-- The operation instants are non-decreasing, starting no earlier than `t`
(wall-clock time is monotone). -/
def timesMono : Nat → List CellOp → Prop
  | _, [] => True
  | t, op :: ops => t ≤ op.time ∧ timesMono op.time ops

instance timesMonoDec : ∀ t ops, Decidable (timesMono t ops)
  | _, [] => isTrue trivial
  | t, op :: ops => @instDecidableAnd _ _ (Nat.decLe t op.time) (timesMonoDec op.time ops)

/-! ## Chunks (`src/chunkify.rs`) -/

/-- `DEFAULT_CHUNK_SIZE`. -/
def DEFAULT_CHUNK_SIZE : Nat := 2922

/-- A `Chunk`: the bytes of this chunk plus the number of bytes remaining from
the start of this chunk to the end of the logical buffer. -/
structure Chunk where
  remaining : Nat
  data : List Nat
  deriving DecidableEq, Repr

/-- `ChunksError`. -/
inductive ChunksError where
  | ChunksSizeMismatch
  | InvalidRemainingValue
  deriving DecidableEq, Repr

/-- `ChunksData`: the two physical shapes of a logical byte string. -/
inductive ChunksData where
  | contiguous (d : List Nat)
  | chunked (v : List Chunk)
  deriving DecidableEq, Repr

/-- `Chunks`: content id, chunk size, and the data in one of the two shapes. -/
structure Chunks where
  id : List Nat
  chunk_size : Nat
  data : ChunksData
  deriving DecidableEq, Repr

/-- Rust's `slice::chunks(cs)`: split into pieces of `cs` elements, the last
piece possibly shorter.  `chunks(0)` panics in Rust; it is modelled as `[]`
here and every theorem using this takes `0 < cs`. -/
def listChunks (cs : Nat) (l : List Nat) : List (List Nat) :=
  match l with
  | [] => []
  | x :: xs =>
    if _h : cs = 0 then []
    else (x :: xs).take cs :: listChunks cs ((x :: xs).drop cs)
termination_by l.length
decreasing_by
  simp only [List.length_drop, List.length_cons]
  omega

/-- `Chunks::new`: hash the buffer with `h` (SHA-256 in the source) and hold
it in contiguous shape. -/
def Chunks.new (h : List Nat → List Nat) (data : List Nat) (cs : Nat) : Chunks :=
  { id := h data, chunk_size := cs, data := .contiguous data }

/-- `Chunks::iter`: in chunked shape, yield the stored chunks; in contiguous
shape, split with `slice::chunks` and attach
`remaining = total_len - total_len.min(idx * chunk_size)`. -/
def Chunks.iter (c : Chunks) : List Chunk :=
  match c.data with
  | .chunked v => v
  | .contiguous d =>
    let total := d.length
    (listChunks c.chunk_size d).enum.map fun p =>
      { remaining := total - min total (p.1 * c.chunk_size), data := p.2 }

/-- The `remaining`-field validation loop of `Chunks::from_chunks`, walking the
chunk list in reverse: each chunk's `remaining` must equal the running
`last_size`, which grows by `chunk_size` per step. -/
def checkRemaining (cs : Nat) : Nat → List Chunk → Bool
  | _, [] => true
  | lastSize, c :: rest => (c.remaining == lastSize) && checkRemaining cs (lastSize + cs) rest

/-- `Chunks::from_chunks`: take `chunk_size` from the first chunk, require all
chunks but the last to have that length, validate the `remaining` fields
against the running suffix size, and hash the concatenation of all chunk
bytes in order. -/
def Chunks.from_chunks (h : List Nat → List Nat) (v : List Chunk) :
    Except ChunksError Chunks :=
  let chunk_size := (v.head?.map (fun c => c.data.length)).getD 0
  if v.dropLast.any (fun c => c.data.length != chunk_size) then
    .error .ChunksSizeMismatch
  else
    let lastSize := (v.getLast?.map (fun c => c.data.length)).getD 0
    if checkRemaining chunk_size lastSize v.reverse then
      .ok { id := h (v.map (fun c => c.data)).flatten, chunk_size, data := .chunked v }
    else
      .error .InvalidRemainingValue

/-- One `ChunksRead::read` call with a destination buffer of `bufLen` bytes:
returns the bytes read and the advanced offset; `none` is a panic (the `usize`
underflow in the contiguous arm, the division by zero, the out-of-bounds
`c[idx]`, or the failed `assert!` in the chunked arm). -/
def readStep (c : Chunks) (offset bufLen : Nat) : Option (List Nat × Nat) :=
  match c.data with
  | .contiguous d =>
    if d.length < offset then none
    else
      let actual := min (d.length - offset) bufLen
      some ((d.drop offset).take actual, offset + actual)
  | .chunked v =>
    if v.isEmpty then some ([], offset)
    else if c.chunk_size = 0 then none
    else
      let idx := offset / c.chunk_size
      let chunkOffset := offset - c.chunk_size * idx
      match v.get? idx with
      | none => none
      | some ch =>
        if ch.data.length < chunkOffset then none
        else
          let actual := min (ch.data.length - chunkOffset) bufLen
          some ((ch.data.drop chunkOffset).take actual, offset + actual)

/-- Sequential reading to end of stream, as `std::io::copy` does: call `read`
with a fixed buffer until it returns `Ok(0)`.  `none` is a panic (fuel
exhaustion never occurs for the instances proved below). -/
def readAll (c : Chunks) (bufLen : Nat) : Nat → Nat → Option (List Nat)
  | 0, _ => none
  | fuel + 1, offset =>
    match readStep c offset bufLen with
    | none => none
    | some (bytes, off) =>
      if bytes.isEmpty then some []
      else (readAll c bufLen fuel off).map (bytes ++ ·)

/-- Total number of bytes from the start of chunk `i` to the end of the
logical buffer: the sum of the lengths of chunks `i, i+1, ...`. -/
def suffixSize (v : List Chunk) (i : Nat) : Nat :=
  (((v.drop i).map fun c => c.data.length)).sum

/-- The structural invariant exactly as the spec words it for C6 (spec-side
definition, to be compared with `Chunks.from_chunks`): all chunks except the
last have length equal to the first chunk's length, the last chunk's length
is at most that length, and every chunk's `remaining` equals the number of
bytes from that chunk's start to the end of the logical buffer. -/
def specChunkInvariantB (v : List Chunk) : Bool :=
  let firstLen := (v.head?.map fun c => c.data.length).getD 0
  let lastLen := (v.getLast?.map fun c => c.data.length).getD 0
  (v.dropLast.all fun c => c.data.length == firstLen) &&
  decide (lastLen ≤ firstLen) &&
  (v.enum.all fun p => p.2.remaining == suffixSize v p.1)

/-! ## Configuration (`src/config.rs`) -/

/-- `config::Action` (named `ConfigAction` here; `Action` exists in Mathlib). -/
inductive ConfigAction where
  | http (method : Option String) (url : String)
  | command (command : String) (args : List String)
  deriving DecidableEq, Repr

/-- `config::ScrapeTargetConfig` (durations in nanoseconds). -/
structure ScrapeTargetConfig where
  interval : Nat
  timeout : Option Nat
  action : ConfigAction
  deriving DecidableEq, Repr

/-! ## Scrape results (`src/scrape_target.rs`) -/

/-- `ScrapeOk`.  An `http::Response<Vec<u8>>` is its status and body; a
`std::process::Output` is its exit status (`ExitStatus::code()` is an
`Option<i32>`, absent when e.g. killed by a signal) plus captured stdout and
stderr. -/
inductive ScrapeOk where
  | httpResponse (status : Nat) (body : List Nat)
  | commandResponse (exit_status : Option Int) (stdout : List Nat) (stderr : List Nat)
  deriving DecidableEq, Repr

/-- `ScrapeErr`, with the opaque wrapped errors reduced to their messages. -/
inductive ScrapeErr where
  | httpErr (msg : String)
  | ioErr (msg : String)
  | timeout
  | cancelled
  deriving DecidableEq, Repr

/-- Rendering of `format!("{e:?}")`, the diagnostic message stored in an
`Error` metadata record. -/
def scrapeErrMessage : ScrapeErr → String
  | .httpErr m => "HttpErr(" ++ m ++ ")"
  | .ioErr m => "IoErr(" ++ m ++ ")"
  | .timeout => "Timeout(Elapsed(()))"
  | .cancelled => "Cancelled"

/-! ## Result processing (`src/result_processor.rs`) -/

/-- `CommandBody`: the `{stdout, stderr}` object built from a command output
with `String::from_utf8_lossy`. -/
structure CommandBody where
  stdout : String
  stderr : String
  deriving DecidableEq, Repr

/-- `ScrapeOkRepr`. -/
inductive ScrapeOkRepr where
  | http (status : Nat) (body_sha256 : List Nat)
  | command (exit_code : Int) (body_sha256 : List Nat)
  deriving DecidableEq, Repr

/-- `ScrapeResultRepr`: the `result` part of the metadata record. -/
inductive ScrapeResultRepr where
  | success (r : ScrapeOkRepr)
  | error (message : String)
  deriving DecidableEq, Repr

/-- `ScrapeResultRepr::scrape_ok_to_meta`, parameterised over the hash `h`
(SHA-256 inside `Chunks::new`), `compress lvl` (`zstd::encode_all` at level
`lvl`), `lossy` (`String::from_utf8_lossy`) and `encodeCB`
(`serde_json::to_vec` on a `CommandBody`). -/
def scrape_ok_to_meta (h : List Nat → List Nat) (compress : Nat → List Nat → List Nat)
    (lossy : List Nat → String) (encodeCB : CommandBody → List Nat) :
    ScrapeOk → ScrapeOkRepr × Chunks
  | .httpResponse status body =>
    let compressed := compress 10 body
    let chunks := Chunks.new h compressed DEFAULT_CHUNK_SIZE
    (.http status chunks.id, chunks)
  | .commandResponse code out err =>
    let exit_code := code.getD 1
    let cbody := encodeCB { stdout := lossy out, stderr := lossy err }
    let compressed := compress 10 cbody
    let chunks := Chunks.new h compressed DEFAULT_CHUNK_SIZE
    (.command exit_code chunks.id, chunks)

/-- `ScrapeResultRepr::from_scrape_result`. -/
def from_scrape_result (h : List Nat → List Nat) (compress : Nat → List Nat → List Nat)
    (lossy : List Nat → String) (encodeCB : CommandBody → List Nat) :
    Except ScrapeErr ScrapeOk → ScrapeResultRepr × Option Chunks
  | .ok ok =>
    let rc := scrape_ok_to_meta h compress lossy encodeCB ok
    (.success rc.1, some rc.2)
  | .error e => (.error (scrapeErrMessage e), none)

/-- One newline-delimited record written by `LogOutputWriter::process`: the
metadata object, or one chunk object (`ChunkRepr`). -/
inductive Record where
  | meta (config : ScrapeTargetConfig) (result : ScrapeResultRepr)
  | chunk (id : List Nat) (remaining : Nat) (data : List Nat)
  deriving DecidableEq, Repr

/-- Whether a record is a chunk record. -/
def Record.isChunk : Record → Bool
  | .chunk .. => true
  | .meta .. => false

/-- Whether a record is a metadata record. -/
def Record.isMeta : Record → Bool
  | .meta .. => true
  | .chunk .. => false

/-- The record sequence `LogOutputWriter::process` writes for one call: the
metadata record first, then — when `from_scrape_result` produced chunks — one
`ChunkRepr` per chunk of `chunks.iter()`, each carrying `chunks.id()`. -/
def processRecords (h : List Nat → List Nat) (compress : Nat → List Nat → List Nat)
    (lossy : List Nat → String) (encodeCB : CommandBody → List Nat)
    (config : ScrapeTargetConfig) (result : Except ScrapeErr ScrapeOk) : List Record :=
  let rc := from_scrape_result h compress lossy encodeCB result
  Record.meta config rc.1 ::
    match rc.2 with
    | none => []
    | some cs => cs.iter.map fun c => Record.chunk cs.id c.remaining c.data

/-- The `body_sha256` field of a success representation. -/
def ScrapeOkRepr.body_sha256 : ScrapeOkRepr → List Nat
  | .http _ s => s
  | .command _ s => s

/-- The data bytes carried by a record (empty for metadata records). -/
def recordData : Record → List Nat
  | .chunk _ _ d => d
  | .meta _ _ => []

/-- The shaped body of a successful result, as built inside
`scrape_ok_to_meta`: the raw body for HTTP, the encoded `{stdout, stderr}`
object for a command. -/
def shapedBody (lossy : List Nat → String) (encodeCB : CommandBody → List Nat) :
    ScrapeOk → List Nat
  | .httpResponse _ body => body
  | .commandResponse _ out err => encodeCB { stdout := lossy out, stderr := lossy err }

/-! ## HTTP action (`src/http.rs`, `src/debugbunny.rs`) -/

/-- An HTTP request as issued by the client: method and URL. -/
structure HttpRequest where
  method : String
  url : String
  deriving DecidableEq, Repr

/-- The request `HttpScrapeTarget::call` issues: `client.get(url)`, i.e. the
`GET` method on the stored URL. -/
def httpRequestOf (url : String) : HttpRequest :=
  { method := "GET", url := url }

/-- `HttpScrapeTarget::call` with the network abstracted as `send`: issue the
request, and on success return the status together with the fully collected
body bytes (`BodyExt::collect`) inside the resolved value. -/
def httpScrapeCall (send : HttpRequest → Except String (Nat × List Nat)) (url : String) :
    Except ScrapeErr ScrapeOk :=
  match send (httpRequestOf url) with
  | .ok sb => .ok (.httpResponse sb.1 sb.2)
  | .error e => .error (.httpErr e)

/-- The request a scrape target built by `DebugBunny::start_scraping` issues
for a config action: the `Http { url, .. }` arm constructs
`HttpScrapeTarget::new(client, url.clone())`, dropping any configured method;
command actions issue no HTTP request. -/
def scrapeRequestOf : ConfigAction → Option HttpRequest
  | .http _ url => some (httpRequestOf url)
  | .command _ _ => none

/-! ## Scheduler theorems (C1, C2, C3) -/

/-- Helper: the exact effect of `reset_interval` at one instant, for a
positive interval: the wakeup becomes `now + interval`. -/
lemma reset_interval_eq (s : SyncedService) (now : Nat) (h : 0 < s.interval) :
    reset_interval s now = some { wakeup := now + s.interval, interval := s.interval } := by
  have hne : s.interval ≠ 0 := Nat.pos_iff_ne_zero.mp h
  unfold reset_interval set_next_wake_up_time
  simp only [lt_self_iff_false, if_false, hne, Nat.sub_self, Nat.zero_add, Nat.div_self h]
  norm_num

/-- C1: the claim states that whenever `now ≥ next_wakeup`, `advance(now)`
increases `next_wakeup` by exactly `k * interval` with
`k = floor(delta / interval) + 1`.  The code computes `k` as a `u32`
(`((delta + ival) / ival) as u32`), so for `interval` of 1 ns and
`delta = 2^32 - 1` ns the exact `k = 2^32` truncates to `0` and the code's
own `assert!(f >= 1)` fails (a panic, `none` in the model) instead of
advancing the wakeup; for `delta = 2^32` ns the truncated factor is `1`, so
the wakeup advances by `1` interval (to `1`, which is in the past) instead of
the claimed `k = 2^32 + 1` intervals. -/
theorem c1_advance_u32_truncation :
    (set_next_wake_up_time ⟨0, 1⟩ (2 ^ 32 - 1) = none ∧
      (2 ^ 32 - 1 - 0) / 1 + 1 = 2 ^ 32) ∧
    (set_next_wake_up_time ⟨0, 1⟩ (2 ^ 32) = some ⟨1, 1⟩ ∧
      0 + ((2 ^ 32 - 0) / 1 + 1) * 1 = 2 ^ 32 + 1) := by
  refine ⟨⟨?_, by norm_num⟩, ⟨?_, by norm_num⟩⟩
  · unfold set_next_wake_up_time
    norm_num
  · unfold set_next_wake_up_time
    norm_num

/-- C2: after an unscheduled call completes at instant `t` (the
`reset_interval` call in `UnscheduledScrapeTarget::call`), the cell's
`next_wakeup` equals `t + interval`; consequently `is_due` stays false — so a
scheduled call cannot start — at every instant before `t + interval`. -/
theorem c2_reset_lands_one_interval_later (s : SyncedService) (t : Nat)
    (h : 0 < s.interval) :
    reset_interval s t = some { wakeup := t + s.interval, interval := s.interval } ∧
    ∀ now, now < t + s.interval →
      is_due { wakeup := t + s.interval, interval := s.interval } now = false := by
  refine ⟨reset_interval_eq s t h, ?_⟩
  intro now hlt
  simp only [is_due, decide_eq_false_iff_not]
  omega

/-- Witness for C2 at a concrete cell. -/
theorem c2_reset_lands_one_interval_later_witness :
    reset_interval ⟨3, 5⟩ 7 = some { wakeup := 12, interval := 5 } ∧
    ∀ now, now < 12 → is_due { wakeup := 12, interval := 5 } now = false :=
  c2_reset_lands_one_interval_later ⟨3, 5⟩ 7 (by decide)

/-- Helper: one non-panicking operation at instant `op.time ≥ t` never
decreases the wakeup, keeps the interval, and re-establishes the invariant
`wakeup ≤ now + interval`. -/
lemma cellStep_mono (s s' : SyncedService) (op : CellOp) (t : Nat)
    (hival : 0 < s.interval) (hinv : s.wakeup ≤ t + s.interval) (ht : t ≤ op.time)
    (hstep : cellStep s op = some s') :
    s.wakeup ≤ s'.wakeup ∧ s'.wakeup ≤ op.time + s'.interval ∧ s'.interval = s.interval := by
  cases op with
  | advance now =>
    simp only [cellStep] at hstep
    simp only [CellOp.time] at ht ⊢
    unfold set_next_wake_up_time at hstep
    split at hstep
    · -- call finished early: state unchanged
      cases hstep
      exact ⟨le_refl _, by omega, rfl⟩
    · split at hstep
      · exact absurd hstep (by simp)
      · simp only [ge_iff_le] at hstep
        split at hstep
        · cases hstep
          rename_i hlt hzero hf
          refine ⟨Nat.le_add_right _ _, ?_, rfl⟩
          have hbound : s.interval * (((now - s.wakeup) + s.interval) / s.interval % 2 ^ 32)
              ≤ (now - s.wakeup) + s.interval := by
            calc s.interval * (((now - s.wakeup) + s.interval) / s.interval % 2 ^ 32)
                ≤ s.interval * (((now - s.wakeup) + s.interval) / s.interval) :=
                  Nat.mul_le_mul_left _ (Nat.mod_le _ _)
              _ ≤ (now - s.wakeup) + s.interval := by
                  rw [mul_comm]; exact Nat.div_mul_le_self _ _
          simp only [not_lt] at hlt
          dsimp only
          omega
        · exact absurd hstep (by simp)
  | reset now =>
    simp only [cellStep] at hstep
    rw [reset_interval_eq s now hival] at hstep
    cases hstep
    simp only [CellOp.time] at ht ⊢
    exact ⟨by omega, le_refl _, by trivial⟩

/-- Helper: along any non-panicking run whose operation instants are
non-decreasing, the observed wakeups form a non-decreasing chain. -/
lemma cellRun_chain (ops : List CellOp) : ∀ (s : SyncedService) (t : Nat)
    (states : List SyncedService),
    0 < s.interval → s.wakeup ≤ t + s.interval → timesMono t ops →
    cellRun s ops = some states →
    List.Chain' (fun a b => a.wakeup ≤ b.wakeup) (s :: states) := by
  induction ops with
  | nil =>
    intro s t states _ _ _ hrun
    simp only [cellRun, Option.some.injEq] at hrun
    subst hrun
    simp
  | cons op ops ih =>
    intro s t states hival hinv hmono hrun
    simp only [cellRun, Option.bind_eq_some] at hrun
    obtain ⟨s', hstep, hrest⟩ := hrun
    simp only [Option.map_eq_some'] at hrest
    obtain ⟨states', hrun', hcons⟩ := hrest
    subst hcons
    obtain ⟨ht, hmono'⟩ := hmono
    obtain ⟨hle, hinv', hkeep⟩ := cellStep_mono s s' op t hival hinv ht hstep
    rw [List.chain'_cons]
    exact ⟨hle, ih s' op.time states' (hkeep ▸ hival) hinv' hmono' hrun'⟩

/-- C3: for a cell constructed at instant `t0` (where `wakeup` is initialised
to `Instant::now()`) with a positive interval, along any sequence of
non-panicking schedule operations (`advance` after scheduled calls, `reset`
after unscheduled calls) executed at non-decreasing wall-clock instants, the
sequence of `next_wakeup` values observed after construction and after each
operation is monotone non-decreasing. -/
theorem c3_wakeup_monotone (t0 ival : Nat) (ops : List CellOp)
    (states : List SyncedService) (hival : 0 < ival) (hmono : timesMono t0 ops)
    (hrun : cellRun ⟨t0, ival⟩ ops = some states) :
    List.Chain' (fun a b => a.wakeup ≤ b.wakeup) (⟨t0, ival⟩ :: states) :=
  cellRun_chain ops ⟨t0, ival⟩ t0 states hival (Nat.le_add_right _ _) hmono hrun

/-- Witness for C3: a concrete lifetime with an early scheduled call, an
unscheduled reset, and a late scheduled call. -/
theorem c3_wakeup_monotone_witness :
    List.Chain' (fun a b : SyncedService => a.wakeup ≤ b.wakeup)
      (⟨0, 50⟩ :: [⟨50, 50⟩, ⟨80, 50⟩, ⟨130, 50⟩]) :=
  c3_wakeup_monotone 0 50 [.advance 20, .reset 30, .advance 100]
    [⟨50, 50⟩, ⟨80, 50⟩, ⟨130, 50⟩] (by decide) (by decide) (by decide)

/-! ## Chunk theorems (C4, C5, C6) -/

/-- Helper: index-wise characterisation of `slice::chunks`: piece `i` exists
iff `i * cs` is inside the buffer, and is then the next `cs` bytes from
offset `i * cs`. -/
lemma listChunks_getElem? (cs : Nat) (hcs : 0 < cs) (l : List Nat) (i : Nat) :
    (listChunks cs l)[i]? =
      if i * cs < l.length then some ((l.drop (i * cs)).take cs) else none := by
  have H : ∀ (n : Nat) (l : List Nat) (i : Nat), l.length ≤ n →
      (listChunks cs l)[i]? =
        if i * cs < l.length then some ((l.drop (i * cs)).take cs) else none := by
    intro n
    induction n with
    | zero =>
      intro l i hl
      have : l = [] := List.eq_nil_of_length_eq_zero (Nat.le_zero.mp hl)
      subst this
      simp [listChunks]
    | succ m ih =>
      intro l i hl
      cases l with
      | nil => simp [listChunks]
      | cons x xs =>
        rw [listChunks]
        rw [dif_neg (Nat.pos_iff_ne_zero.mp hcs)]
        cases i with
        | zero => simp
        | succ j =>
          have hlen : ((x :: xs).drop cs).length ≤ m := by
            simp only [List.length_drop, List.length_cons]
            simp only [List.length_cons] at hl
            omega
          have := ih ((x :: xs).drop cs) j hlen
          simp only [List.getElem?_cons_succ]
          rw [this]
          rw [List.drop_drop, List.length_drop, Nat.succ_mul]
          have hiff : j * cs < (x :: xs).length - cs ↔ j * cs + cs < (x :: xs).length := by
            generalize j * cs = a
            omega
          by_cases hc : j * cs + cs < (x :: xs).length
          · rw [if_pos (hiff.mpr hc), if_pos hc, Nat.add_comm cs (j * cs)]
          · rw [if_neg (fun hx => hc (hiff.mp hx)), if_neg hc]
  exact H l.length l i (le_refl _)

/-- Helper: `slice::chunks` pieces concatenate back to the buffer. -/
lemma listChunks_flatten (cs : Nat) (hcs : 0 < cs) (l : List Nat) :
    (listChunks cs l).flatten = l := by
  have H : ∀ (n : Nat) (l : List Nat), l.length ≤ n → (listChunks cs l).flatten = l := by
    intro n
    induction n with
    | zero =>
      intro l hl
      have : l = [] := List.eq_nil_of_length_eq_zero (Nat.le_zero.mp hl)
      subst this
      simp [listChunks]
    | succ m ih =>
      intro l hl
      cases l with
      | nil => simp [listChunks]
      | cons x xs =>
        rw [listChunks]
        rw [dif_neg (Nat.pos_iff_ne_zero.mp hcs)]
        have hlen : ((x :: xs).drop cs).length ≤ m := by
          simp only [List.length_drop, List.length_cons]
          simp only [List.length_cons] at hl
          omega
        rw [List.flatten_cons, ih _ hlen, List.take_append_drop]
  exact H l.length l (le_refl _)

/-- Helper: index-wise characterisation of `Chunks::iter` on a contiguous
buffer: chunk `i` carries `remaining = total - i * cs` and the bytes from
offset `i * cs`. -/
lemma iter_new_getElem? (h : List Nat → List Nat) (d : List Nat) (cs : Nat)
    (hcs : 0 < cs) (i : Nat) :
    (Chunks.new h d cs).iter[i]? =
      if i * cs < d.length then
        some { remaining := d.length - i * cs, data := (d.drop (i * cs)).take cs }
      else none := by
  unfold Chunks.new Chunks.iter
  dsimp only
  rw [List.getElem?_map]
  rw [List.getElem?_enum, listChunks_getElem? cs hcs d i]
  by_cases hc : i * cs < d.length
  · rw [if_pos hc, if_pos hc]
    simp only [Option.map_some']
    have : min d.length (i * cs) = i * cs := min_eq_right (Nat.le_of_lt hc)
    rw [this]
  · rw [if_neg hc, if_neg hc]
    simp

/-- Helper: the last chunk of a contiguous iteration has
`remaining = data.len()` and is no longer than the chunk size. -/
lemma iter_new_getLast (h : List Nat → List Nat) (d : List Nat) (cs : Nat)
    (hcs : 0 < cs) (c : Chunk)
    (hc : (Chunks.new h d cs).iter.getLast? = some c) :
    c.remaining = c.data.length ∧ c.data.length ≤ cs := by
  set L := (Chunks.new h d cs).iter with hL
  have hM : 0 < L.length := by
    cases hL2 : L with
    | nil => rw [hL2] at hc; simp at hc
    | cons a t => simp [hL2]
  rw [List.getLast?_eq_getElem?] at hc
  have hkey := iter_new_getElem? h d cs hcs (L.length - 1)
  rw [← hL] at hkey
  rw [hkey] at hc
  have hnone : L[L.length]? = none := List.getElem?_eq_none (le_refl _)
  have hkeyN := iter_new_getElem? h d cs hcs L.length
  rw [← hL] at hkeyN
  rw [hkeyN] at hnone
  have hout : ¬ (L.length * cs < d.length) := by
    intro hx
    rw [if_pos hx] at hnone
    exact Option.some_ne_none _ hnone
  split at hc
  · rename_i hin
    cases hc
    have hmul : L.length * cs = (L.length - 1) * cs + cs := by
      conv_lhs => rw [show L.length = (L.length - 1) + 1 by omega]
      rw [Nat.succ_mul]
    constructor
    · dsimp only
      simp only [List.length_take, List.length_drop]
      generalize hA : (L.length - 1) * cs = A at *
      omega
    · dsimp only
      simp only [List.length_take, List.length_drop]
      exact Nat.min_le_left _ _
  · exact absurd hc (by simp)

/-- C4: iterating the contiguous `Chunks` built from a non-empty buffer with
a positive chunk size yields a chunk sequence whose first `remaining` is the
total length, whose consecutive `remaining`s differ by exactly the preceding
chunk's length, whose last chunk has `remaining` equal to its own length, and
in which every non-last chunk has length exactly the chunk size (hence all
equal) with the last chunk no longer than that. -/
theorem c4_contiguous_iter_invariants (h : List Nat → List Nat) (d : List Nat)
    (cs : Nat) (hd : d ≠ []) (hcs : 0 < cs) :
    ((Chunks.new h d cs).iter.head?.map Chunk.remaining = some d.length) ∧
    (∀ i a b, (Chunks.new h d cs).iter[i]? = some a →
      (Chunks.new h d cs).iter[i + 1]? = some b →
      a.remaining - a.data.length = b.remaining) ∧
    (∀ c, (Chunks.new h d cs).iter.getLast? = some c →
      c.remaining = c.data.length) ∧
    (∀ i a, (Chunks.new h d cs).iter[i]? = some a →
      (Chunks.new h d cs).iter[i + 1]? ≠ none → a.data.length = cs) ∧
    (∀ c, (Chunks.new h d cs).iter.getLast? = some c → c.data.length ≤ cs) := by
  have hlen0 : 0 < d.length := List.length_pos.mpr hd
  have key := iter_new_getElem? h d cs hcs
  refine ⟨?_, ?_, ?_, ?_, ?_⟩
  · rw [List.head?_eq_getElem?, key 0]
    rw [if_pos (by simpa using hlen0)]
    simp
  · intro i a b ha hb
    rw [key i] at ha
    rw [key (i + 1)] at hb
    split at ha
    · split at hb
      · cases ha
        cases hb
        rename_i hia hib
        simp only [List.length_take, List.length_drop]
        have hsm : (i + 1) * cs = i * cs + cs := Nat.succ_mul i cs
        generalize hA : i * cs = A at *
        generalize hB : (i + 1) * cs = B at *
        omega
      · exact absurd hb (by simp)
    · exact absurd ha (by simp)
  · intro c hc
    exact (iter_new_getLast h d cs hcs c hc).1
  · intro i a ha hb
    rw [key i] at ha
    split at ha
    · cases ha
      rename_i hia
      rw [key (i + 1)] at hb
      have hib : (i + 1) * cs < d.length := by
        by_contra hx
        exact hb (if_neg hx)
      simp only [List.length_take, List.length_drop]
      have hsm : (i + 1) * cs = i * cs + cs := Nat.succ_mul i cs
      generalize hA : i * cs = A at *
      generalize hB : (i + 1) * cs = B at *
      omega
    · exact absurd ha (by simp)
  · intro c hc
    exact (iter_new_getLast h d cs hcs c hc).2

/-- Witness for C4: a concrete five-byte buffer with chunk size two. -/
theorem c4_contiguous_iter_invariants_witness :
    (((Chunks.new (fun l => l) [0, 1, 2, 3, 4] 2).iter.head?.map Chunk.remaining
        = some ([0, 1, 2, 3, 4] : List Nat).length) ∧
      (∀ i a b, (Chunks.new (fun l => l) [0, 1, 2, 3, 4] 2).iter[i]? = some a →
        (Chunks.new (fun l => l) [0, 1, 2, 3, 4] 2).iter[i + 1]? = some b →
        a.remaining - a.data.length = b.remaining) ∧
      (∀ c, (Chunks.new (fun l => l) [0, 1, 2, 3, 4] 2).iter.getLast? = some c →
        c.remaining = c.data.length) ∧
      (∀ i a, (Chunks.new (fun l => l) [0, 1, 2, 3, 4] 2).iter[i]? = some a →
        (Chunks.new (fun l => l) [0, 1, 2, 3, 4] 2).iter[i + 1]? ≠ none →
        a.data.length = 2) ∧
      (∀ c, (Chunks.new (fun l => l) [0, 1, 2, 3, 4] 2).iter.getLast? = some c →
        c.data.length ≤ 2)) :=
  c4_contiguous_iter_invariants (fun l => l) [0, 1, 2, 3, 4] 2 (by decide) (by decide)

/-- C5: the round trip is broken by a reader panic.  For the one-byte buffer
`[7]` (chunk size 2), the contiguous `Chunks` iterates to the single chunk
`⟨remaining 1, [7]⟩`; `from_chunks` accepts it, with `chunk_size` re-derived
as 1 (the first chunk's length).  Sequentially reading the rebuilt object
returns the byte `7` and then, at offset 1 (end of stream), computes chunk
index `1 / 1 = 1` and indexes out of bounds (`c[idx]` panics) instead of
reporting end of stream, so reading to the end never completes. -/
theorem c5_rebuild_read_panics :
    (Chunks.from_chunks (fun l => l) ((Chunks.new (fun l => l) [7] 2).iter)
        = Except.ok ⟨[7], 1, ChunksData.chunked [⟨1, [7]⟩]⟩) ∧
    readStep ⟨[7], 1, ChunksData.chunked [⟨1, [7]⟩]⟩ 1 1 = none ∧
    readAll ⟨[7], 1, ChunksData.chunked [⟨1, [7]⟩]⟩ 1 5 0 = none := by
  refine ⟨?_, rfl, rfl⟩
  simp [Chunks.from_chunks, Chunks.new, Chunks.iter, listChunks, checkRemaining]

/-- Helper: the reverse-order `remaining` validation accepts a list iff each
position `i` (in the traversal order) carries `start + i * cs`. -/
lemma checkRemaining_iff (cs : Nat) : ∀ (start : Nat) (l : List Chunk),
    checkRemaining cs start l = true ↔
      ∀ i c, l[i]? = some c → c.remaining = start + i * cs := by
  intro start l
  induction l generalizing start with
  | nil => simp [checkRemaining]
  | cons a t ih =>
    simp only [checkRemaining, Bool.and_eq_true, beq_iff_eq]
    constructor
    · rintro ⟨h1, h2⟩ i c hc
      cases i with
      | zero =>
        simp only [List.getElem?_cons_zero, Option.some.injEq] at hc
        subst hc
        simpa using h1
      | succ j =>
        simp only [List.getElem?_cons_succ] at hc
        have := (ih (start + cs)).mp h2 j c hc
        rw [Nat.succ_mul]
        omega
    · intro hall
      refine ⟨?_, (ih (start + cs)).mpr ?_⟩
      · simpa using hall 0 a (by simp)
      · intro j c hc
        have := hall (j + 1) c (by simpa using hc)
        rw [Nat.succ_mul] at this
        omega

/-- Helper: when all chunks except the last have length `cs`, the suffix size
at a valid position `i` is `(N - 1 - i) * cs` plus the last chunk's length. -/
lemma suffixSize_uniform (cs : Nat) : ∀ (v : List Chunk),
    (∀ c ∈ v.dropLast, c.data.length = cs) →
    ∀ i, i < v.length →
      suffixSize v i =
        (v.length - 1 - i) * cs + ((v.getLast?.map fun c => c.data.length).getD 0) := by
  intro v
  induction v with
  | nil =>
    intro _ i hi
    exact absurd hi (by simp)
  | cons a t ih =>
    intro hA i hi
    cases t with
    | nil =>
      have hi0 : i = 0 := by
        simp only [List.length_cons, List.length_nil] at hi
        omega
      subst hi0
      simp [suffixSize]
    | cons b u =>
      have hdl : (a :: b :: u).dropLast = a :: (b :: u).dropLast := by
        simp
      have hA' : ∀ c ∈ (b :: u).dropLast, c.data.length = cs := by
        intro c hc
        exact hA c (by rw [hdl]; exact List.mem_cons_of_mem _ hc)
      have ha : a.data.length = cs := by
        apply hA
        rw [hdl]
        exact List.mem_cons_self _ _
      cases i with
      | zero =>
        have hIH := ih hA' 0 (by simp)
        have hsum : suffixSize (a :: b :: u) 0 = a.data.length + suffixSize (b :: u) 0 := by
          simp [suffixSize]
        rw [hsum, hIH, List.getLast?_cons_cons, ha]
        simp only [Nat.sub_zero]
        have hmul : (b :: u).length * cs = ((b :: u).length - 1) * cs + cs := by
          conv_lhs => rw [show (b :: u).length = ((b :: u).length - 1) + 1 by simp]
          rw [Nat.succ_mul]
        have hlen : (a :: b :: u).length - 1 = (b :: u).length := by simp
        rw [hlen]
        omega
      | succ j =>
        have hj : j < (b :: u).length := by
          simp only [List.length_cons] at hi ⊢
          omega
        have hIH := ih hA' j hj
        have hsum : suffixSize (a :: b :: u) (j + 1) = suffixSize (b :: u) j := by
          simp [suffixSize]
        have hlen : (a :: b :: u).length - 1 - (j + 1) = (b :: u).length - 1 - j := by
          simp only [List.length_cons]
          omega
        rw [hsum, hIH, List.getLast?_cons_cons, hlen]

/-- C6 (amended): `Chunks::from_chunks` returns `Ok` exactly when all chunks
except the last have length equal to the first chunk's length and every
chunk's `remaining` equals the number of bytes from that chunk's start to the
end of the logical buffer.  (No upper bound is imposed on the last chunk's
length.) -/
theorem c6_from_chunks_ok_iff (h : List Nat → List Nat) (v : List Chunk) :
    (Chunks.from_chunks h v).isOk = true ↔
      ((∀ c ∈ v.dropLast,
          c.data.length = (v.head?.map fun c => c.data.length).getD 0) ∧
        ∀ i c, v[i]? = some c → c.remaining = suffixSize v i) := by
  simp only [Chunks.from_chunks]
  set cs := (v.head?.map fun c => c.data.length).getD 0 with hcsdef
  set lastLen := (v.getLast?.map fun c => c.data.length).getD 0 with hlldef
  split_ifs with hA hB
  · simp only [Except.isOk, Except.toBool, Bool.false_eq_true, false_iff]
    rintro ⟨hsz, -⟩
    obtain ⟨c, hc, hbe⟩ := List.any_eq_true.mp hA
    exact bne_iff_ne.mp hbe (hsz c hc)
  · simp only [Except.isOk, Except.toBool, true_iff]
    have hszc : ∀ c ∈ v.dropLast, c.data.length = cs := by
      intro c hc
      by_contra hne
      exact hA (List.any_eq_true.mpr ⟨c, hc, bne_iff_ne.mpr hne⟩)
    refine ⟨hszc, ?_⟩
    intro i c hic
    have hiltv : i < v.length := (List.getElem?_eq_some_iff.mp hic).1
    have hrev : v.reverse[v.length - 1 - i]? = some c := by
      rw [List.getElem?_reverse (by omega)]
      rw [show v.length - 1 - (v.length - 1 - i) = i by omega]
      exact hic
    have hck := (checkRemaining_iff cs lastLen v.reverse).mp hB _ c hrev
    rw [suffixSize_uniform cs v hszc i hiltv, ← hlldef]
    omega
  · simp only [Except.isOk, Except.toBool, Bool.false_eq_true, false_iff]
    rintro ⟨hsz, hrem⟩
    have hszc : ∀ c ∈ v.dropLast, c.data.length = cs := hsz
    apply hB
    rw [checkRemaining_iff]
    intro j c hjc
    have hj : j < v.length := by
      have := (List.getElem?_eq_some_iff.mp hjc).1
      simpa using this
    have hfwd : v[v.length - 1 - j]? = some c := by
      rw [← List.getElem?_reverse (by omega)]
      exact hjc
    have hr := hrem _ c hfwd
    rw [suffixSize_uniform cs v hszc _ (by omega)] at hr
    rw [show v.length - 1 - (v.length - 1 - j) = j by omega] at hr
    rw [← hlldef] at hr
    omega

/-- C6 counterexample: a two-chunk list whose last chunk (5 bytes) is longer
than the first (2 bytes) — violating the claimed invariant "the last chunk's
length is ≤ the common length" — is nevertheless accepted by `from_chunks`,
because the code only compares the lengths of all chunks but the last against
the first chunk's length and never bounds the last chunk. -/
theorem c6_from_chunks_counterexample :
    (Chunks.from_chunks (fun l => l)
        [⟨7, [0, 1]⟩, ⟨5, [2, 3, 4, 5, 6]⟩]).isOk = true ∧
    specChunkInvariantB [⟨7, [0, 1]⟩, ⟨5, [2, 3, 4, 5, 6]⟩] = false := by
  refine ⟨?_, ?_⟩
  · rfl
  · rfl

/-! ## Result-processing theorems (C7, C8, C10) -/

/-- C7: for every error result, `process` writes exactly one metadata record,
whose outcome is `Error` with the diagnostic message, and no chunk records. -/
theorem c7_error_single_meta_no_chunks (h : List Nat → List Nat)
    (compress : Nat → List Nat → List Nat) (lossy : List Nat → String)
    (encodeCB : CommandBody → List Nat) (config : ScrapeTargetConfig) (e : ScrapeErr) :
    processRecords h compress lossy encodeCB config (.error e) =
      [Record.meta config (.error (scrapeErrMessage e))] ∧
    ((processRecords h compress lossy encodeCB config (.error e)).filter
      Record.isMeta).length = 1 ∧
    (processRecords h compress lossy encodeCB config (.error e)).filter
      Record.isChunk = [] :=
  ⟨rfl, rfl, rfl⟩

/-- Helper: the data fields of a contiguous iteration are exactly the
`slice::chunks` pieces of the buffer. -/
lemma iter_new_map_data (h : List Nat → List Nat) (d : List Nat) (cs : Nat) :
    (Chunks.new h d cs).iter.map (fun c => c.data) = listChunks cs d := by
  unfold Chunks.new Chunks.iter
  dsimp only
  rw [List.map_map]
  have hcomp : ((fun c : Chunk => c.data) ∘ fun p : Nat × List Nat =>
      ({ remaining := d.length - min d.length (p.1 * cs), data := p.2 } : Chunk)) =
      Prod.snd := rfl
  rw [hcomp, List.enum_map_snd]

/-- C8: for every successful result, the emitted metadata record carries
`body_sha256 = h (compress 10 shaped)` — the hash of the zstd-level-10
compression of the shaped body — every following chunk record carries that
same id, and concatenating the chunk records' data yields exactly the
compressed stream (compression happens before chunking). -/
theorem c8_success_compressed_hash (h : List Nat → List Nat)
    (compress : Nat → List Nat → List Nat) (lossy : List Nat → String)
    (encodeCB : CommandBody → List Nat) (config : ScrapeTargetConfig) (ok : ScrapeOk) :
    (∃ m, (processRecords h compress lossy encodeCB config (.ok ok)).head? =
        some (Record.meta config (.success m)) ∧
      m.body_sha256 = h (compress 10 (shapedBody lossy encodeCB ok))) ∧
    (∀ r ∈ (processRecords h compress lossy encodeCB config (.ok ok)).tail,
      ∃ rem dat,
        r = Record.chunk (h (compress 10 (shapedBody lossy encodeCB ok))) rem dat) ∧
    (((processRecords h compress lossy encodeCB config (.ok ok)).tail.map
        recordData).flatten = compress 10 (shapedBody lossy encodeCB ok)) := by
  refine ⟨?_, ?_, ?_⟩
  · cases ok with
    | httpResponse status body =>
      exact ⟨.http status (h (compress 10 body)), rfl, rfl⟩
    | commandResponse code out err =>
      exact ⟨.command (code.getD 1)
        (h (compress 10 (encodeCB { stdout := lossy out, stderr := lossy err }))), rfl, rfl⟩
  · intro r hr
    cases ok with
    | httpResponse status body =>
      simp only [processRecords, from_scrape_result, scrape_ok_to_meta,
        List.tail_cons, List.mem_map] at hr
      obtain ⟨c, -, rfl⟩ := hr
      exact ⟨c.remaining, c.data, rfl⟩
    | commandResponse code out err =>
      simp only [processRecords, from_scrape_result, scrape_ok_to_meta,
        List.tail_cons, List.mem_map] at hr
      obtain ⟨c, -, rfl⟩ := hr
      exact ⟨c.remaining, c.data, rfl⟩
  · have hstep : ∀ (body : List Nat),
        (((Chunks.new h (compress 10 body) DEFAULT_CHUNK_SIZE).iter.map fun c =>
            Record.chunk (h (compress 10 body)) c.remaining c.data).map
          recordData).flatten = compress 10 body := by
      intro body
      rw [List.map_map]
      have hcomp : (recordData ∘ fun c : Chunk =>
          Record.chunk (h (compress 10 body)) c.remaining c.data) =
          fun c : Chunk => c.data := rfl
      rw [hcomp, iter_new_map_data, listChunks_flatten DEFAULT_CHUNK_SIZE (by decide)]
    cases ok with
    | httpResponse status body => exact hstep body
    | commandResponse code out err =>
      exact hstep (encodeCB { stdout := lossy out, stderr := lossy err })

/-- C10: a command result whose subprocess terminated without an exit code
(`ExitStatus::code()` returned `None`, e.g. killed by a signal) is reported
in the metadata record with `exit_code = 1` (`code().unwrap_or(1)`). -/
theorem c10_missing_exit_code_reports_one (h : List Nat → List Nat)
    (compress : Nat → List Nat → List Nat) (lossy : List Nat → String)
    (encodeCB : CommandBody → List Nat) (config : ScrapeTargetConfig)
    (out err : List Nat) :
    (processRecords h compress lossy encodeCB config
        (.ok (.commandResponse none out err))).head? =
      some (Record.meta config (.success (.command 1
        (h (compress 10 (encodeCB { stdout := lossy out, stderr := lossy err })))))) :=
  rfl

/-! ## HTTP action theorems (C9) -/

/-- C9 counterexample: for an HTTP action configured with method `POST`, the
request constructed by `DebugBunny::start_scraping` (which drops the
configured method) uses `GET`, not the configured method — refuting the claim
that the configured method is used when given. -/
theorem c9_configured_method_ignored :
    (scrapeRequestOf (ConfigAction.http (some "POST") "http://example.com/")).map
      HttpRequest.method = some "GET" ∧
    some "GET" ≠ some "POST" := by
  exact ⟨rfl, by decide⟩

/-- C9 (amended): every call on an HTTP scrape target issues a `GET` request
to the configured URL regardless of any configured method, and the response
body returned by the transport is fully materialised inside the resolved
result value. -/
theorem c9_always_get_with_full_body (m : Option String) (url : String)
    (send : HttpRequest → Except String (Nat × List Nat)) (status : Nat)
    (body : List Nat)
    (hsend : send { method := "GET", url := url } = .ok (status, body)) :
    scrapeRequestOf (ConfigAction.http m url) = some { method := "GET", url := url } ∧
    httpScrapeCall send url = .ok (.httpResponse status body) := by
  refine ⟨rfl, ?_⟩
  unfold httpScrapeCall httpRequestOf
  rw [hsend]

/-- Witness for the amended C9 at a concrete transport. -/
theorem c9_always_get_with_full_body_witness :
    scrapeRequestOf (ConfigAction.http (some "POST") "u") =
      some { method := "GET", url := "u" } ∧
    httpScrapeCall (fun _ => Except.ok (200, [1, 2])) "u" =
      Except.ok (ScrapeOk.httpResponse 200 [1, 2]) :=
  c9_always_get_with_full_body (some "POST") "u"
    (fun _ => Except.ok (200, [1, 2])) 200 [1, 2] rfl
